import Mathlib

/-!
Verification of the enhanced tag switcher plugin (`src/main.ts`).

Lines of text are modelled as `List Char`; a column is a `Nat` index into that
list (the editor's 0-based `ch` coordinate).  Tags and queries are `String`s,
manipulated through their underlying character lists, since every string
operation the plugin performs (`indexOf`, `includes`, `toLowerCase`,
`startsWith`, concatenation, length) acts on the code-unit sequence.
-/

/-- Character class of the tag pattern `# [\\w slash hyphen]+` from `handleTagClick`:
ASCII word characters (letters, digits, underscore), slash and hyphen. -/
def isTagChar (c : Char) : Bool :=
  c.isAlphanum || c == '_' || c == '/' || c == '-'

/-- All non-overlapping matches of the global tag regex (hash, then one or more word, slash or hyphen characters) in a line, scanning left to
right, each with its start column: the semantics of
`line.match` with that global regex in `handleTagClick`, keeping the positions the
regex engine visits (the JS API returns only the strings; the code recovers
the positions with `indexOf`, embedded below as `indexOfFrom`). -/
def tagMatchesP : List Char → Nat → List (Nat × List Char)
  | [], _ => []
  | c :: rest, i =>
    if c = '#' then
      if rest.takeWhile isTagChar = [] then
        tagMatchesP rest (i + 1)
      else
        (i, '#' :: rest.takeWhile isTagChar) ::
          tagMatchesP (rest.drop (rest.takeWhile isTagChar).length)
            (i + 1 + (rest.takeWhile isTagChar).length)
    else
      tagMatchesP rest (i + 1)
termination_by l _ => l.length
decreasing_by
  all_goals simp_all
  omega

/-- Worker for `String.prototype.indexOf`: the least position `≥ i` (counting the
positions already consumed) where `pat` occurs in the remaining list. -/
def indexOfAux (pat : List Char) : List Char → Nat → Option Nat
  | [], i => if pat.isPrefixOf ([] : List Char) then some i else none
  | c :: rest, i =>
    if pat.isPrefixOf (c :: rest) then some i else indexOfAux pat rest (i + 1)

/-- Embedding of `line.indexOf(pat, start)`: the least `q ≥ start` at which `pat` occurs in
`line`, if any. -/
def indexOfFrom (line pat : List Char) (start : Nat) : Option Nat :=
  indexOfAux pat (line.drop start) start

/-- The `for (const tag of tagMatch)` loop of `handleTagClick`: locate each
match string with `indexOf` from `searchFrom`, and return the first span
`[tagStartPos, tagEndPos]` that contains the cursor column (inclusive at both
ends).  A match that is somehow not found leaves `searchFrom` unchanged, as in
the source's `if (tagIndex !== -1)` guard. -/
def findTagLoop (line : List Char) (cursorCh : Nat) :
    List (List Char) → Nat → Option (Nat × Nat)
  | [], _ => none
  | tag :: rest, searchFrom =>
    match indexOfFrom line tag searchFrom with
    | some tagIndex =>
      if tagIndex ≤ cursorCh ∧ cursorCh ≤ tagIndex + tag.length then
        some (tagIndex, tagIndex + tag.length)
      else
        findTagLoop line cursorCh rest (tagIndex + tag.length)
    | none => findTagLoop line cursorCh rest searchFrom

/-- The fallback `line.match` with the partial regex (hash, then zero or more tag characters) of `handleTagClick`: the first
position holding `'#'` starts the match, which then extends over zero or more
tag characters (so a bare `#` matches).  Returns the span `(index, end)`. -/
def partialTagMatchAux : List Char → Nat → Option (Nat × Nat)
  | [], _ => none
  | c :: rest, i =>
    if c = '#' then some (i, i + 1 + (rest.takeWhile isTagChar).length)
    else partialTagMatchAux rest (i + 1)

/-- The Tag Locator of `handleTagClick`: if the global tag search produced any
match (`tagMatch` non-null), run the containment loop and use its result (no
modal opens when the loop finds nothing); otherwise fall back to the single
partial-pattern search. -/
def locate (line : List Char) (cursorCh : Nat) : Option (Nat × Nat) :=
  match (tagMatchesP line 0).map Prod.snd with
  | [] => partialTagMatchAux line 0
  | tag :: rest => findTagLoop line cursorCh (tag :: rest) 0

/-- Structurally recursive form of `tagMatchesP`, used to evaluate it: instead
of skipping past a matched body it advances one character at a time.  The two
agree (`tagMatchesP_eq_scan`) because a tag body contains no `'#'`, so the
skipped region can start no match. -/
def tagMatchesScan : List Char → Nat → List (Nat × List Char)
  | [], _ => []
  | c :: rest, i =>
    if c = '#' ∧ rest.takeWhile isTagChar ≠ [] then
      (i, '#' :: rest.takeWhile isTagChar) :: tagMatchesScan rest (i + 1)
    else
      tagMatchesScan rest (i + 1)

/-- Embedding of `s.includes(sub)`: substring containment, through `indexOf`. -/
def strIncludes (s sub : String) : Bool :=
  (indexOfAux sub.data s.data 0).isSome

/-- Embedding of `s.toLowerCase()`, character by character. -/
def strLower (s : String) : String :=
  ⟨s.data.map Char.toLower⟩

/-- The key normalization of `loadAllTags`:
`tag.startsWith('#') ? tag : '#' + tag`. -/
def normalizeTag (tag : String) : String :=
  if tag.data.head? = some '#' then tag else ⟨'#' :: tag.data⟩

/-- The comparator `(a, b) => a.localeCompare(b)` used to sort the remaining
vault tags, modelled as code-point lexicographic comparison of the character
sequences. -/
def localeLe (a b : String) : Bool :=
  decide (a.data ≤ b.data)

/-- Embedding of `loadAllTags` of `TagSelectorModal`: normalize the keys of the vault's tag
index, reverse the stored recency list (most recent first), keep only recent
tags still present in the vault, sort the remaining vault tags with
`localeCompare`, concatenate, and prepend the `'CLEAR_TAG'` sentinel. -/
def loadAllTags (allTagsObjectKeys recentlyChosenTags : List String) :
    List String :=
  let allVaultTags := allTagsObjectKeys.map normalizeTag
  let recentTags := recentlyChosenTags.reverse
  let validRecentTags := recentTags.filter (fun tag => allVaultTags.contains tag)
  let remainingTags :=
    (allVaultTags.filter (fun tag => !validRecentTags.contains tag)).mergeSort localeLe
  "CLEAR_TAG" :: (validRecentTags ++ remainingTags)

/-- The recency-derived catalog entries: the reversed recency list restricted
to tags still present in the vault set. -/
def keptRecent (vault recency : List String) : List String :=
  recency.reverse.filter (fun t => vault.contains t)

/-- The remaining vault tags, sorted by the locale comparison. -/
def sortedRemainder (vault recency : List String) : List String :=
  (vault.filter (fun t => !(keptRecent vault recency).contains t)).mergeSort localeLe

/-- Embedding of `getSuggestions` of `TagSelectorModal`: the empty query returns the whole
catalog; otherwise filter the non-sentinel entries by case-insensitive
substring match, and prepend the sentinel when the lowercased query is a
substring of one of the literal words "clear", "remove" or "delete". -/
def getSuggestions (allTags : List String) (query : String) : List String :=
  let queryLower := strLower query
  if query = "" then allTags
  else
    let filteredTags := allTags.filter fun tag =>
      decide (tag ≠ "CLEAR_TAG") && strIncludes (strLower tag) queryLower
    if strIncludes "clear" queryLower || strIncludes "remove" queryLower
        || strIncludes "delete" queryLower then
      "CLEAR_TAG" :: filteredTags
    else
      filteredTags

/-- Embedding of `updateRecentlyChosenTags` of `TagSelectorModal`: remove the tag's prior
occurrence if any, push it at the end (most recent), and shift the oldest
entry off the front when the list exceeds 20 entries. -/
def updateRecentlyChosenTags (recentTags : List String) (tag : String) :
    List String :=
  let afterRemove := recentTags.erase tag
  let afterPush := afterRemove ++ [tag]
  if 20 < afterPush.length then afterPush.drop 1 else afterPush

/-- Embedding of `onChooseSuggestion` of `TagSelectorModal`, as its effect on the clicked
line, the cursor column and the recency list.  The span `(sp.1, sp.2)` is the
located tag position; `replaceRange` splices the replacement between the
span's endpoints.  The sentinel branch deletes the span and does not touch the
recency list. -/
def onChooseSuggestion (tag : String) (line : List Char) (sp : Nat × Nat)
    (recency : List String) : List Char × Nat × List String :=
  if tag = "CLEAR_TAG" then
    (line.take sp.1 ++ line.drop sp.2, sp.1, recency)
  else
    (line.take sp.1 ++ tag.data ++ line.drop sp.2, sp.1 + tag.length,
      updateRecentlyChosenTags recency tag)

/-- Modelled from the spec: the host editor's `replaceRange` (not part of this
repository) may reject the mutation, e.g. in a read-only document; in the host
runtime a rejection raises, so nothing after the call runs.  A successful call
splices the text into the span. -/
def replaceRangeE (rejects : Bool) (line : List Char) (sp : Nat × Nat)
    (text : List Char) : Option (List Char) :=
  if rejects then none
  else some (line.take sp.1 ++ text ++ line.drop sp.2)

/-- Version of `onChooseSuggestion` threaded through the fallible editor: the text
mutation runs first; the cursor move and the recency update run only after it
succeeds, and a rejection aborts the rest of the handler. -/
def onChooseSuggestionE (rejects : Bool) (tag : String) (line : List Char)
    (sp : Nat × Nat) (recency : List String) :
    Option (List Char × Nat × List String) :=
  if tag = "CLEAR_TAG" then
    match replaceRangeE rejects line sp [] with
    | none => none
    | some newLine => some (newLine, sp.1, recency)
  else
    match replaceRangeE rejects line sp tag.data with
    | none => none
    | some newLine =>
        some (newLine, sp.1 + tag.length, updateRecentlyChosenTags recency tag)

/-- The handler as the host observes it: an aborted handler leaves the
document line and the stored recency list as they were. -/
def runChoose (rejects : Bool) (tag : String) (line : List Char)
    (sp : Nat × Nat) (recency : List String) : List Char × List String :=
  match onChooseSuggestionE rejects tag line sp recency with
  | none => (line, recency)
  | some (l, _, r) => (l, r)

lemma isTagChar_ne_hash {c : Char} (h : isTagChar c = true) : c ≠ '#' := by
  rintro rfl
  simp [isTagChar] at h

lemma tagMatchesScan_append_body (body tail : List Char)
    (hb : ∀ c ∈ body, isTagChar c = true) :
    ∀ j, tagMatchesScan (body ++ tail) j = tagMatchesScan tail (j + body.length) := by
  induction body with
  | nil => intro j; simp
  | cons d ds ih =>
    intro j
    have hd : d ≠ '#' := isTagChar_ne_hash (hb d (by simp))
    have : tagMatchesScan (d :: (ds ++ tail)) j = tagMatchesScan (ds ++ tail) (j + 1) := by
      simp [tagMatchesScan, hd]
    rw [List.cons_append, this, ih (fun c hc => hb c (by simp [hc]))]
    congr 1
    simp
    omega

lemma tagMatchesP_eq_scan : ∀ l i, tagMatchesP l i = tagMatchesScan l i := by
  intro l i
  induction l, i using tagMatchesP.induct with
  | case1 i => simp [tagMatchesP, tagMatchesScan]
  | case2 rest i hw ih =>
    rw [show tagMatchesP ('#' :: rest) i = tagMatchesP rest (i + 1) by
      simp [tagMatchesP, hw]]
    rw [show tagMatchesScan ('#' :: rest) i = tagMatchesScan rest (i + 1) by
      simp [tagMatchesScan, hw]]
    exact ih
  | case3 rest i hw ih =>
    have hdrop : rest.drop (rest.takeWhile isTagChar).length
        = rest.dropWhile isTagChar := by
      nth_rewrite 2 [← List.takeWhile_append_dropWhile isTagChar rest]
      rw [List.drop_left]
    have hskip : tagMatchesScan rest (i + 1)
        = tagMatchesScan (rest.dropWhile isTagChar)
            (i + 1 + (rest.takeWhile isTagChar).length) := by
      conv_lhs => rw [← List.takeWhile_append_dropWhile isTagChar rest]
      exact tagMatchesScan_append_body _ _ (fun x hx => List.mem_takeWhile_imp hx) _
    rw [show tagMatchesP ('#' :: rest) i
        = (i, '#' :: rest.takeWhile isTagChar) ::
            tagMatchesP (rest.drop (rest.takeWhile isTagChar).length)
              (i + 1 + (rest.takeWhile isTagChar).length) by
      simp [tagMatchesP, hw]]
    rw [show tagMatchesScan ('#' :: rest) i
        = (i, '#' :: rest.takeWhile isTagChar) :: tagMatchesScan rest (i + 1) by
      simp [tagMatchesScan, hw]]
    rw [ih, hdrop, hskip]
  | case4 c rest i hc ih =>
    rw [show tagMatchesP (c :: rest) i = tagMatchesP rest (i + 1) by
      simp [tagMatchesP, hc]]
    rw [show tagMatchesScan (c :: rest) i = tagMatchesScan rest (i + 1) by
      simp [tagMatchesScan, hc]]
    exact ih

example : tagMatchesScan "See #project/alpha and #todo".toList 0 =
    [(4, "#project/alpha".toList), (23, "#todo".toList)] := by decide

lemma tagMatchesP_shape : ∀ l i s t, (s, t) ∈ tagMatchesP l i →
    ∃ d body, t = '#' :: d :: body ∧ isTagChar d = true := by
  intro l i
  induction l, i using tagMatchesP.induct with
  | case1 i => intro s t h; simp [tagMatchesP] at h
  | case2 rest i hw ih =>
    intro s t h
    rw [show tagMatchesP ('#' :: rest) i = tagMatchesP rest (i + 1) by
      simp [tagMatchesP, hw]] at h
    exact ih s t h
  | case3 rest i hw ih =>
    intro s t h
    rw [show tagMatchesP ('#' :: rest) i
        = (i, '#' :: rest.takeWhile isTagChar) ::
            tagMatchesP (rest.drop (rest.takeWhile isTagChar).length)
              (i + 1 + (rest.takeWhile isTagChar).length) by
      simp [tagMatchesP, hw]] at h
    rcases List.mem_cons.mp h with h1 | h2
    · obtain ⟨hs2, ht2⟩ := Prod.mk.inj h1
      obtain ⟨d, body, hb⟩ := List.exists_cons_of_ne_nil hw
      refine ⟨d, body, by rw [ht2, hb], ?_⟩
      exact List.mem_takeWhile_imp (l := rest)
        (by rw [hb]; exact List.mem_cons_self d body)
    · exact ih s t h2
  | case4 c rest i hc ih =>
    intro s t h
    rw [show tagMatchesP (c :: rest) i = tagMatchesP rest (i + 1) by
      simp [tagMatchesP, hc]] at h
    exact ih s t h

lemma line_drop_succ (line : List Char) (p : Nat) :
    line.drop (p + 1) = (line.drop p).drop 1 :=
  (List.drop_drop 1 p line).symm

/-- Unrolling `indexOf` by one position: either the pattern occurs right at
`p`, or the search continues from `p + 1`. -/
lemma indexOfFrom_step (line pat : List Char) (p : Nat) :
    indexOfFrom line pat p
      = if pat.isPrefixOf (line.drop p) then some p
        else indexOfFrom line pat (p + 1) := by
  unfold indexOfFrom
  cases h : line.drop p with
  | nil =>
    have h1 : line.drop (p + 1) = [] := by rw [line_drop_succ, h]; rfl
    rw [h1]
    by_cases hp : pat.isPrefixOf ([] : List Char)
    · simp [indexOfAux, hp]
    · simp [indexOfAux, hp]
  | cons x xs =>
    have h1 : line.drop (p + 1) = xs := by rw [line_drop_succ, h]; rfl
    rw [h1]
    by_cases hp : pat.isPrefixOf (x :: xs)
    · simp [indexOfAux, hp]
    · simp [indexOfAux, hp]

/-- Eliminating one scanner step: if the global tag search on the suffix of
`line` at `p` produces a first match `(s, t)`, then `line.indexOf(t, p)` finds
it exactly at `s` (no earlier occurrence exists, because any occurrence of a
hash followed by a tag character would itself have been matched), and the
remaining matches are the scan of the suffix after the match. -/
lemma tagMatchesP_cons_elim (line : List Char) :
    ∀ l p s t ms, l = line.drop p → tagMatchesP l p = (s, t) :: ms →
      indexOfFrom line t p = some s
      ∧ ms = tagMatchesP (line.drop (s + t.length)) (s + t.length) := by
  intro l p
  induction l, p using tagMatchesP.induct with
  | case1 p =>
    intro s t ms _ h
    simp [tagMatchesP] at h
  | case2 rest p hw ih =>
    intro s t ms hline h
    rw [show tagMatchesP ('#' :: rest) p = tagMatchesP rest (p + 1) by
      simp [tagMatchesP, hw]] at h
    have hrest : rest = line.drop (p + 1) := by
      rw [line_drop_succ, ← hline, List.drop_succ_cons, List.drop_zero]
    obtain ⟨hidx, hms⟩ := ih s t ms hrest h
    refine ⟨?_, hms⟩
    rw [indexOfFrom_step, if_neg ?_]
    · exact hidx
    · obtain ⟨d, body, ht, hd⟩ :=
        tagMatchesP_shape rest (p + 1) s t (by rw [h]; exact List.mem_cons_self _ _)
      rw [← hline, ht]
      intro hpre
      have hpre2 : d :: body <+: rest :=
        ((List.cons_prefix_cons).mp ( List.isPrefixOf_iff_prefix.mp hpre)).2
      obtain ⟨u, hu⟩ := hpre2
      rw [← hu, List.cons_append, List.takeWhile_cons_of_pos hd] at hw
      simp at hw
  | case3 rest p hw ih =>
    intro s t ms hline h
    rw [show tagMatchesP ('#' :: rest) p
        = (p, '#' :: rest.takeWhile isTagChar) ::
            tagMatchesP (rest.drop (rest.takeWhile isTagChar).length)
              (p + 1 + (rest.takeWhile isTagChar).length) by
      simp [tagMatchesP, hw]] at h
    obtain ⟨h1, h2⟩ := List.cons.inj h
    obtain ⟨hs, ht⟩ := Prod.mk.inj h1
    subst hs
    refine ⟨?_, ?_⟩
    · have hpre : t.isPrefixOf (line.drop p) = true := by
        rw [← hline, ← ht]
        exact List.isPrefixOf_iff_prefix.mpr
          (List.cons_prefix_cons.mpr ⟨rfl, List.takeWhile_prefix isTagChar⟩)
      rw [indexOfFrom_step, if_pos hpre]
    · rw [← h2, ← ht]
      have e1 : line.drop (p + 1) = rest := by
        rw [line_drop_succ, ← hline, List.drop_succ_cons, List.drop_zero]
      rw [show p + ('#' :: rest.takeWhile isTagChar).length
          = p + 1 + (rest.takeWhile isTagChar).length by
        simp [List.length_cons]; omega]
      rw [← List.drop_drop, e1]
  | case4 c rest p hc ih =>
    intro s t ms hline h
    rw [show tagMatchesP (c :: rest) p = tagMatchesP rest (p + 1) by
      simp [tagMatchesP, hc]] at h
    have hrest : rest = line.drop (p + 1) := by
      rw [line_drop_succ, ← hline, List.drop_succ_cons, List.drop_zero]
    obtain ⟨hidx, hms⟩ := ih s t ms hrest h
    refine ⟨?_, hms⟩
    rw [indexOfFrom_step, if_neg ?_]
    · exact hidx
    · obtain ⟨d, body, ht, _⟩ :=
        tagMatchesP_shape rest (p + 1) s t (by rw [h]; exact List.mem_cons_self _ _)
      rw [← hline, ht]
      intro hpre
      exact hc ((List.cons_prefix_cons).mp ( List.isPrefixOf_iff_prefix.mp hpre)).1.symm


/-- The containment loop returns exactly the first scanned match whose closed
span contains the cursor. -/
lemma findTagLoop_eq_find (line : List Char) (c : Nat) :
    ∀ ms p, tagMatchesP (line.drop p) p = ms →
      findTagLoop line c (ms.map Prod.snd) p
        = (ms.find? fun m => decide (m.1 ≤ c ∧ c ≤ m.1 + m.2.length)).map
            (fun m => (m.1, m.1 + m.2.length)) := by
  intro ms
  induction ms with
  | nil => intro p _; simp [findTagLoop]
  | cons m tail ih =>
    intro p h
    obtain ⟨s, t⟩ := m
    obtain ⟨hidx, htail⟩ := tagMatchesP_cons_elim line (line.drop p) p s t tail rfl h
    by_cases hcont : s ≤ c ∧ c ≤ s + t.length
    · simp only [List.map_cons, findTagLoop, hidx, if_pos hcont]
      rw [List.find?_cons_of_pos _ (by simpa using hcont)]
      rfl
    · simp only [List.map_cons, findTagLoop, hidx, if_neg hcont]
      rw [ih (s + t.length) htail.symm,
        List.find?_cons_of_neg _ (by simpa using hcont)]

/-- When the global search finds matches, the locator's answer is the first
containing match's span. -/
lemma locate_eq_find (line : List Char) (c : Nat) (h : tagMatchesP line 0 ≠ []) :
    locate line c
      = ((tagMatchesP line 0).find? fun m =>
            decide (m.1 ≤ c ∧ c ≤ m.1 + m.2.length)).map
          (fun m => (m.1, m.1 + m.2.length)) := by
  have key := findTagLoop_eq_find line c (tagMatchesP line 0) 0 (by rw [List.drop_zero])
  obtain ⟨m, ms, hm⟩ := List.exists_cons_of_ne_nil h
  unfold locate
  rw [hm] at key ⊢
  simp only [List.map_cons] at key ⊢
  exact key

/-- When the global search finds no match at all, the locator falls back to
the partial pattern. -/
lemma locate_eq_partial (line : List Char) (c : Nat) (h : tagMatchesP line 0 = []) :
    locate line c = partialTagMatchAux line 0 := by
  unfold locate
  simp [h]

lemma tagMatchesP_start_ge : ∀ l i s t, (s, t) ∈ tagMatchesP l i → i ≤ s := by
  intro l i
  induction l, i using tagMatchesP.induct with
  | case1 i => intro s t h; simp [tagMatchesP] at h
  | case2 rest i hw ih =>
    intro s t h
    rw [show tagMatchesP ('#' :: rest) i = tagMatchesP rest (i + 1) by
      simp [tagMatchesP, hw]] at h
    exact Nat.le_of_succ_le (ih s t h)
  | case3 rest i hw ih =>
    intro s t h
    rw [show tagMatchesP ('#' :: rest) i
        = (i, '#' :: rest.takeWhile isTagChar) ::
            tagMatchesP (rest.drop (rest.takeWhile isTagChar).length)
              (i + 1 + (rest.takeWhile isTagChar).length) by
      simp [tagMatchesP, hw]] at h
    rcases List.mem_cons.mp h with h1 | h2
    · rw [(Prod.mk.inj h1).1]
    · have := ih s t h2
      omega
  | case4 c rest i hc ih =>
    intro s t h
    rw [show tagMatchesP (c :: rest) i = tagMatchesP rest (i + 1) by
      simp [tagMatchesP, hc]] at h
    exact Nat.le_of_succ_le (ih s t h)

/-- The scanned matches are disjoint and ordered: each one ends at or before
the next one starts. -/
lemma tagMatchesP_pairwise : ∀ l i,
    (tagMatchesP l i).Pairwise (fun a b => a.1 + a.2.length ≤ b.1) := by
  intro l i
  induction l, i using tagMatchesP.induct with
  | case1 i => simp [tagMatchesP]
  | case2 rest i hw ih =>
    rw [show tagMatchesP ('#' :: rest) i = tagMatchesP rest (i + 1) by
      simp [tagMatchesP, hw]]
    exact ih
  | case3 rest i hw ih =>
    rw [show tagMatchesP ('#' :: rest) i
        = (i, '#' :: rest.takeWhile isTagChar) ::
            tagMatchesP (rest.drop (rest.takeWhile isTagChar).length)
              (i + 1 + (rest.takeWhile isTagChar).length) by
      simp [tagMatchesP, hw]]
    refine List.Pairwise.cons ?_ ih
    intro b hb
    have := tagMatchesP_start_ge _ _ b.1 b.2 (by simpa using hb)
    simp only [List.length_cons]
    omega
  | case4 c rest i hc ih =>
    rw [show tagMatchesP (c :: rest) i = tagMatchesP rest (i + 1) by
      simp [tagMatchesP, hc]]
    exact ih

/-- C2: for every line text and cursor column, the locator scans the line's
non-overlapping tag-pattern matches left to right and returns the span of the
first match whose column range contains the cursor, inclusive of both
boundaries; in particular, if the cursor lies within `[start, end]` of exactly
one tag match, that match's span is returned and never an adjacent one. -/
theorem locate_first_containing (line : List Char) (cursor : Nat)
    (h : tagMatchesP line 0 ≠ []) :
    locate line cursor
      = ((tagMatchesP line 0).find? fun m =>
            decide (m.1 ≤ cursor ∧ cursor ≤ m.1 + m.2.length)).map
          (fun m => (m.1, m.1 + m.2.length))
    ∧ ∀ m ∈ tagMatchesP line 0,
        (m.1 ≤ cursor ∧ cursor ≤ m.1 + m.2.length) →
        (∀ mm ∈ tagMatchesP line 0,
          (mm.1 ≤ cursor ∧ cursor ≤ mm.1 + mm.2.length) → mm = m) →
        locate line cursor = some (m.1, m.1 + m.2.length) := by
  refine ⟨locate_eq_find line cursor h, ?_⟩
  intro m hm hcont huniq
  have hsome : ((tagMatchesP line 0).find? fun mm =>
      decide (mm.1 ≤ cursor ∧ cursor ≤ mm.1 + mm.2.length)).isSome := by
    rw [List.find?_isSome]
    exact ⟨m, hm, by simpa using hcont⟩
  obtain ⟨x, hx⟩ := Option.isSome_iff_exists.mp hsome
  have hxm : x = m :=
    huniq x (List.mem_of_find?_eq_some hx) (by simpa using List.find?_some hx)
  rw [locate_eq_find line cursor h, hx, hxm]
  rfl

/-- Witness for C2 at the spec's own scenario line: the cursor at column 6 of
`"See #project/alpha and #todo"` resolves to the span of `#project/alpha`. -/
theorem locate_first_containing_witness :
    tagMatchesP "See #project/alpha and #todo".toList 0 ≠ []
    ∧ locate "See #project/alpha and #todo".toList 6 = some (4, 18) := by
  have hne : tagMatchesP "See #project/alpha and #todo".toList 0 ≠ [] := by
    rw [tagMatchesP_eq_scan]; decide
  refine ⟨hne, ?_⟩
  rw [(locate_first_containing _ 6 hne).1, tagMatchesP_eq_scan]
  decide

/-- C3 counterexample: on the line `"#a b"` with the cursor at column 4, no
full tag-pattern match contains the cursor and the partial fallback search
would yield the span `(0, 2)`, yet the locator returns `NotFound` — the code
runs the fallback only when the line has no full match at all, not whenever
containment fails. -/
theorem locate_fallback_cex :
    tagMatchesP "#a b".toList 0 ≠ []
    ∧ (∀ m ∈ tagMatchesP "#a b".toList 0, ¬(m.1 ≤ 4 ∧ 4 ≤ m.1 + m.2.length))
    ∧ partialTagMatchAux "#a b".toList 0 = some (0, 2)
    ∧ locate "#a b".toList 4 = none
    ∧ locate "#a b".toList 4 ≠ partialTagMatchAux "#a b".toList 0 := by
  refine ⟨?_, ?_, by decide, ?_, ?_⟩
  · rw [tagMatchesP_eq_scan]; decide
  · rw [tagMatchesP_eq_scan]; decide
  · unfold locate; rw [tagMatchesP_eq_scan]; decide
  · unfold locate; rw [tagMatchesP_eq_scan]; decide

/-- C3 (amended): the locator falls back to the single zero-or-more-characters
partial search (which may match a bare `#`) exactly when the line has no full
tag-pattern match at all; in that case it returns the fallback's first match's
span if any, and `NotFound` when the fallback also yields nothing.  When full
matches exist but none contains the cursor, the locator returns `NotFound`
without consulting the fallback. -/
theorem locate_fallback (line : List Char) (cursor : Nat)
    (h : tagMatchesP line 0 = []) :
    locate line cursor = partialTagMatchAux line 0 :=
  locate_eq_partial line cursor h

/-- Witness for the amended C3: on `"x # y"` (no full match) the locator
returns the fallback's bare-hash span `(2, 3)`. -/
theorem locate_fallback_witness :
    tagMatchesP "x # y".toList 0 = []
    ∧ locate "x # y".toList 3 = partialTagMatchAux "x # y".toList 0
    ∧ partialTagMatchAux "x # y".toList 0 = some (2, 3) := by
  have h : tagMatchesP "x # y".toList 0 = [] := by
    rw [tagMatchesP_eq_scan]; decide
  exact ⟨h, locate_fallback _ 3 h, by decide⟩

/-- C10: when two adjacent tag matches share a boundary column (the first
one's end equals the second one's start, as in `"#a#b"`), a cursor exactly at
the shared column resolves to the earlier (left) tag's span: matches are
tested left to right and the containment test is inclusive at both ends. -/
theorem locate_adjacent_boundary (line : List Char)
    (pre suf : List (Nat × List Char)) (m1 m2 : Nat × List Char)
    (h : tagMatchesP line 0 = pre ++ m1 :: m2 :: suf)
    (hadj : m1.1 + m1.2.length = m2.1) :
    locate line m2.1 = some (m1.1, m1.1 + m1.2.length) := by
  have hne : tagMatchesP line 0 ≠ [] := by
    rw [h]; exact List.append_ne_nil_of_right_ne_nil _ (List.cons_ne_nil _ _)
  have hlen : 0 < m1.2.length := by
    obtain ⟨d, body, ht, _⟩ := tagMatchesP_shape line 0 m1.1 m1.2
      (by rw [h]; exact List.mem_append_right _ (List.mem_cons_self _ _))
    rw [ht]; simp
  have hpw := tagMatchesP_pairwise line 0
  rw [h, List.pairwise_append] at hpw
  rw [locate_eq_find line m2.1 hne, h, List.find?_append]
  have hprenone : (pre.find? fun m =>
      decide (m.1 ≤ m2.1 ∧ m2.1 ≤ m.1 + m.2.length)) = none := by
    rw [List.find?_eq_none]
    intro a ha
    have hbound : a.1 + a.2.length ≤ m1.1 :=
      hpw.2.2 a ha (m1.1, m1.2) (List.mem_cons_self _ _)
    simp only [decide_eq_true_eq, not_and]
    intro _
    omega
  rw [hprenone, Option.none_or,
    List.find?_cons_of_pos _ (by simp; omega)]
  rfl

/-- Witness for C10 on the line `"#a#b"`: the two matches share column 2 and
the cursor there yields the left span `(0, 2)`. -/
theorem locate_adjacent_boundary_witness :
    tagMatchesP "#a#b".toList 0
        = [] ++ (0, "#a".toList) :: (2, "#b".toList) :: []
    ∧ locate "#a#b".toList 2 = some (0, 2) := by
  have h : tagMatchesP "#a#b".toList 0
      = [] ++ (0, "#a".toList) :: (2, "#b".toList) :: [] := by
    rw [tagMatchesP_eq_scan]; decide
  exact ⟨h, locate_adjacent_boundary "#a#b".toList [] []
    (0, "#a".toList) (2, "#b".toList) h (by decide)⟩

lemma update_preserves (l : List String) (t : String)
    (h1 : l.length ≤ 20) (h2 : l.Nodup) :
    (updateRecentlyChosenTags l t).length ≤ 20
    ∧ (updateRecentlyChosenTags l t).Nodup := by
  have hnodup : (l.erase t ++ [t]).Nodup := by
    rw [List.nodup_append]
    refine ⟨h2.erase t, List.nodup_singleton t, ?_⟩
    intro x hx hx1
    rw [List.mem_singleton] at hx1
    subst hx1
    exact List.Nodup.not_mem_erase h2 hx
  have hlen : (l.erase t ++ [t]).length ≤ 21 := by
    have := List.length_erase_le t l
    simp only [List.length_append, List.length_singleton]
    omega
  unfold updateRecentlyChosenTags
  by_cases hc : 20 < (l.erase t ++ [t]).length
  · rw [if_pos hc]
    constructor
    · simp only [List.length_drop]
      omega
    · exact List.Nodup.sublist (List.drop_sublist 1 _) hnodup
  · rw [if_neg hc]
    exact ⟨by omega, hnodup⟩

lemma update_move_to_end (l : List String) (t : String)
    (h1 : l.length ≤ 20) (hm : t ∈ l) :
    updateRecentlyChosenTags l t = l.erase t ++ [t]
    ∧ (updateRecentlyChosenTags l t).length = l.length
    ∧ (updateRecentlyChosenTags l t).getLast? = some t := by
  have hlen : (l.erase t ++ [t]).length = l.length := by
    have h0 : 1 ≤ l.length := List.length_pos.mpr (List.ne_nil_of_mem hm)
    simp only [List.length_append, List.length_singleton,
      List.length_erase_of_mem hm]
    omega
  have heq : updateRecentlyChosenTags l t = l.erase t ++ [t] := by
    unfold updateRecentlyChosenTags
    rw [if_neg (by omega)]
  exact ⟨heq, by rw [heq, hlen], by rw [heq]; exact List.getLast?_concat _⟩

lemma update_evicts (l : List String) (t : String)
    (hnm : t ∉ l) (hlen : l.length = 20) :
    updateRecentlyChosenTags l t = l.drop 1 ++ [t] := by
  unfold updateRecentlyChosenTags
  rw [List.erase_of_not_mem hnm, if_pos (by simp [hlen]),
    List.drop_append_of_le_length (by omega)]

lemma foldl_update_preserves (chosen : List String) :
    ∀ init : List String, init.length ≤ 20 → init.Nodup →
      (chosen.foldl updateRecentlyChosenTags init).length ≤ 20
      ∧ (chosen.foldl updateRecentlyChosenTags init).Nodup := by
  induction chosen with
  | nil => intro init h1 h2; exact ⟨h1, h2⟩
  | cons c cs ih =>
    intro init h1 h2
    simp only [List.foldl_cons]
    obtain ⟨a, b⟩ := update_preserves init c h1 h2
    exact ih _ a b

/-- C4: starting from a recency list of length at most 20 with no duplicates,
any sequence of applier updates keeps the length at most 20 and the entries
distinct (the oldest entry is evicted from the front on overflow), and
re-choosing a tag already in the list moves it to the most-recent (last)
position without changing the length. -/
theorem recency_invariant (init chosen : List String)
    (h1 : init.length ≤ 20) (h2 : init.Nodup) :
    (chosen.foldl updateRecentlyChosenTags init).length ≤ 20
    ∧ (chosen.foldl updateRecentlyChosenTags init).Nodup
    ∧ (∀ t ∈ init,
        (updateRecentlyChosenTags init t).getLast? = some t
        ∧ (updateRecentlyChosenTags init t).length = init.length)
    ∧ (∀ t, t ∉ init → init.length = 20 →
        updateRecentlyChosenTags init t = init.drop 1 ++ [t]) := by
  refine ⟨(foldl_update_preserves chosen init h1 h2).1,
    (foldl_update_preserves chosen init h1 h2).2, ?_,
    fun t hnm hl => update_evicts init t hnm hl⟩
  · intro t hm
    obtain ⟨_, hl, hlast⟩ := update_move_to_end init t h1 hm
    exact ⟨hlast, hl⟩

/-- Witness for C4 on a concrete run: starting from `["#a", "#b"]` and
choosing `"#c"` then `"#a"`, the invariant holds. -/
theorem recency_invariant_witness :
    (["#a", "#b"] : List String).length ≤ 20
    ∧ (["#a", "#b"] : List String).Nodup
    ∧ (["#c", "#a"].foldl updateRecentlyChosenTags ["#a", "#b"]).length ≤ 20
    ∧ (["#c", "#a"].foldl updateRecentlyChosenTags ["#a", "#b"]).Nodup
    ∧ ["#c", "#a"].foldl updateRecentlyChosenTags ["#a", "#b"]
        = ["#b", "#c", "#a"] :=
  ⟨by decide, by decide,
    (recency_invariant ["#a", "#b"] ["#c", "#a"] (by decide) (by decide)).1,
    (recency_invariant ["#a", "#b"] ["#c", "#a"] (by decide) (by decide)).2.1,
    by decide⟩

lemma onChoose_ne (tag : String) (h : tag ≠ "CLEAR_TAG") (line : List Char)
    (sp : Nat × Nat) (recency : List String) :
    onChooseSuggestion tag line sp recency
      = (line.take sp.1 ++ tag.data ++ line.drop sp.2, sp.1 + tag.length,
          updateRecentlyChosenTags recency tag) := by
  simp [onChooseSuggestion, h]

/-- C6: choosing the clear sentinel deletes exactly the span's text (leaving
no residual marker character), places the cursor at the span start, and leaves
the recency list unmodified; in the scenario, clearing the located span of
`#todo` in `"x #todo y"` yields `"x  y"` with the cursor where `#todo`
began. -/
theorem onChoose_clear (line : List Char) (sp : Nat × Nat)
    (recency : List String) :
    onChooseSuggestion "CLEAR_TAG" line sp recency
      = (line.take sp.1 ++ line.drop sp.2, sp.1, recency)
    ∧ locate "x #todo y".toList 3 = some (2, 7)
    ∧ onChooseSuggestion "CLEAR_TAG" "x #todo y".toList (2, 7) recency
      = ("x  y".toList, 2, recency) := by
  refine ⟨by simp [onChooseSuggestion], ?_, ?_⟩
  · unfold locate; rw [tagMatchesP_eq_scan]; decide
  · have hx : "x #todo y".toList.take 2 ++ "x #todo y".toList.drop 7
        = "x  y".toList := by decide
    show ("x #todo y".toList.take 2 ++ "x #todo y".toList.drop 7, 2, recency)
      = ("x  y".toList, 2, recency)
    rw [hx]

/-- C5 counterexample: on the scenario line the span located for cursor
column 6 covers `#project/alpha`, and choosing `#done` produces
`"See #done and #todo"` with the cursor at column 9 (immediately after
`#done`) in the editor's 0-based columns — not at column 10 as the claim
states. -/
theorem onChoose_replace_cex :
    locate "See #project/alpha and #todo".toList 6 = some (4, 18)
    ∧ (onChooseSuggestion "#done" "See #project/alpha and #todo".toList
        (4, 18) []).1 = "See #done and #todo".toList
    ∧ (onChooseSuggestion "#done" "See #project/alpha and #todo".toList
        (4, 18) []).2.1 = 9
    ∧ (onChooseSuggestion "#done" "See #project/alpha and #todo".toList
        (4, 18) []).2.1 ≠ 10 := by
  refine ⟨?_, by decide, by decide, by decide⟩
  unfold locate; rw [tagMatchesP_eq_scan]; decide

/-- C5 (amended): for every chosen tag other than the sentinel, the applier
replaces exactly the span's text with the chosen tag verbatim and places the
cursor at `span.from` offset by the chosen tag's length; in the scenario,
choosing `#done` over the located span of `#project/alpha` in
`"See #project/alpha and #todo"` yields `"See #done and #todo"` with the
cursor at 0-based column 9, the position right after `#done`. -/
theorem onChoose_replace (tag : String) (h : tag ≠ "CLEAR_TAG")
    (line : List Char) (sp : Nat × Nat) (recency : List String) :
    (onChooseSuggestion tag line sp recency).1
        = line.take sp.1 ++ tag.data ++ line.drop sp.2
    ∧ (onChooseSuggestion tag line sp recency).2.1 = sp.1 + tag.length
    ∧ (onChooseSuggestion "#done" "See #project/alpha and #todo".toList
        (4, 18) recency).1 = "See #done and #todo".toList
    ∧ (onChooseSuggestion "#done" "See #project/alpha and #todo".toList
        (4, 18) recency).2.1 = 9 := by
  refine ⟨by rw [onChoose_ne tag h], by rw [onChoose_ne tag h], ?_, ?_⟩
  · rw [onChoose_ne "#done" (by decide)]
    show "See #project/alpha and #todo".toList.take 4 ++ "#done".data
        ++ "See #project/alpha and #todo".toList.drop 18
      = "See #done and #todo".toList
    decide
  · rw [onChoose_ne "#done" (by decide)]
    show (4 : Nat) + "#done".length = 9
    decide

/-- Witness for the amended C5 at the scenario input. -/
theorem onChoose_replace_witness :
    ("#done" : String) ≠ "CLEAR_TAG"
    ∧ (onChooseSuggestion "#done" "See #project/alpha and #todo".toList
        (4, 18) ["#x"]).2.1 = 9 :=
  ⟨by decide,
    (onChoose_replace "#done" (by decide) "See #project/alpha and #todo".toList
      (4, 18) ["#x"]).2.2.2⟩

/-- C9: the applier performs the text mutation first and updates the recency
list only if the mutation succeeds — if the document rejects the mutation the
whole operation aborts with no partial edit and no recency update, while a
successful run produces exactly the pure applier's result. -/
theorem onChoose_atomic (tag : String) (line : List Char) (sp : Nat × Nat)
    (recency : List String) :
    runChoose true tag line sp recency = (line, recency)
    ∧ onChooseSuggestionE false tag line sp recency
        = some (onChooseSuggestion tag line sp recency) := by
  constructor
  · by_cases h : tag = "CLEAR_TAG" <;>
      simp [runChoose, onChooseSuggestionE, replaceRangeE, h]
  · by_cases h : tag = "CLEAR_TAG" <;>
      simp [onChooseSuggestionE, replaceRangeE, onChooseSuggestion, h]

/-- C7: for every non-empty query whose lowercasing is a substring of one of
the literal words "clear", "remove" or "delete" (substring-of-keyword, not
keyword-contained-in-query), the sentinel is prepended to the filtered
results even though the sentinel's own text need not match the query; in
particular, the query "del" surfaces the sentinel although "del" does not
occur in "CLEAR_TAG". -/
theorem getSuggestions_clear_intent (catalog : List String) (query : String)
    (hq : query ≠ "")
    (hi : (strIncludes "clear" (strLower query)
        || strIncludes "remove" (strLower query)
        || strIncludes "delete" (strLower query)) = true) :
    getSuggestions catalog query
      = "CLEAR_TAG" :: catalog.filter (fun t =>
          decide (t ≠ "CLEAR_TAG") && strIncludes (strLower t) (strLower query))
    ∧ (getSuggestions catalog query).head? = some "CLEAR_TAG"
    ∧ strIncludes (strLower "CLEAR_TAG") (strLower "del") = false
    ∧ getSuggestions ["CLEAR_TAG", "#x"] "del" = ["CLEAR_TAG"] := by
  have h1 : getSuggestions catalog query
      = "CLEAR_TAG" :: catalog.filter (fun t =>
          decide (t ≠ "CLEAR_TAG")
            && strIncludes (strLower t) (strLower query)) := by
    unfold getSuggestions
    rw [if_neg hq, if_pos hi]
  exact ⟨h1, by rw [h1]; rfl, by decide, by decide⟩

/-- Witness for C7 with the query "del". -/
theorem getSuggestions_clear_intent_witness :
    ("del" : String) ≠ ""
    ∧ (strIncludes "clear" (strLower "del")
        || strIncludes "remove" (strLower "del")
        || strIncludes "delete" (strLower "del")) = true
    ∧ (getSuggestions ["CLEAR_TAG", "#x"] "del").head? = some "CLEAR_TAG" :=
  ⟨by decide, by decide,
    (getSuggestions_clear_intent ["CLEAR_TAG", "#x"] "del"
      (by decide) (by decide)).2.1⟩

/-- C8 counterexample: the non-empty query "e" matches no non-sentinel entry
of the catalog `["CLEAR_TAG", "#a"]`, yet `getSuggestions` returns
`["CLEAR_TAG"]` — the clear-intent rule fires because "e" is a substring of
"clear" — and not the plain filtered list the claim describes. -/
theorem getSuggestions_filter_cex :
    getSuggestions ["CLEAR_TAG", "#a"] "e" = ["CLEAR_TAG"]
    ∧ (["CLEAR_TAG", "#a"].filter fun t =>
        decide (t ≠ "CLEAR_TAG")
          && strIncludes (strLower t) (strLower "e")) = []
    ∧ getSuggestions ["CLEAR_TAG", "#a"] "e"
        ≠ (["CLEAR_TAG", "#a"].filter fun t =>
            decide (t ≠ "CLEAR_TAG")
              && strIncludes (strLower t) (strLower "e")) := by
  exact ⟨by decide, by decide, by decide⟩

/-- C8 (amended): the empty query returns the catalog unchanged (and on a
built catalog the sentinel is in first position); every non-empty query that
does not trigger the clear-intent rule returns exactly the non-sentinel
catalog entries containing the query as a case-insensitive substring, in
catalog order; clear-intent queries additionally prepend the sentinel to that
filtered list. -/
theorem getSuggestions_filter (catalog : List String) (query : String)
    (keys recency : List String) (hq : query ≠ "")
    (hno : (strIncludes "clear" (strLower query)
        || strIncludes "remove" (strLower query)
        || strIncludes "delete" (strLower query)) = false) :
    getSuggestions catalog query
      = catalog.filter (fun t =>
          decide (t ≠ "CLEAR_TAG") && strIncludes (strLower t) (strLower query))
    ∧ getSuggestions catalog "" = catalog
    ∧ (getSuggestions (loadAllTags keys recency) "").head? = some "CLEAR_TAG" := by
  refine ⟨?_, by simp [getSuggestions], rfl⟩
  unfold getSuggestions
  rw [if_neg hq, if_neg (by rw [hno]; simp)]

/-- Witness for the amended C8: the query "b" (not a clear keyword fragment)
selects exactly the entries containing it, case-insensitively and in catalog
order. -/
theorem getSuggestions_filter_witness :
    ("b" : String) ≠ ""
    ∧ (strIncludes "clear" (strLower "b")
        || strIncludes "remove" (strLower "b")
        || strIncludes "delete" (strLower "b")) = false
    ∧ getSuggestions ["CLEAR_TAG", "#ab", "#B", "#c"] "b" = ["#ab", "#B"] := by
  refine ⟨by decide, by decide, ?_⟩
  rw [(getSuggestions_filter ["CLEAR_TAG", "#ab", "#B", "#c"] "b" [] []
    (by decide) (by decide)).1]
  decide

/-- C1: for every vault tag set and recency list, the candidate catalog is the
sentinel, then the reversed recency list restricted to tags still present in
the vault, then the remaining vault tags sorted by the locale comparison; no
tag appears twice and the sentinel is always first.  In particular, for vault
tags `{#a, #b, #c}` and recency `[#c, #a]` (oldest to newest) the catalog is
`[CLEAR_TAG, #a, #c, #b]`. -/
theorem loadAllTags_catalog (keys recency : List String)
    (hv : (keys.map normalizeTag).Nodup) (hr : recency.Nodup)
    (hc : "CLEAR_TAG" ∉ keys.map normalizeTag) :
    loadAllTags keys recency
      = "CLEAR_TAG" :: (keptRecent (keys.map normalizeTag) recency
          ++ sortedRemainder (keys.map normalizeTag) recency)
    ∧ (loadAllTags keys recency).head? = some "CLEAR_TAG"
    ∧ (loadAllTags keys recency).Nodup
    ∧ (sortedRemainder (keys.map normalizeTag) recency).Perm
        ((keys.map normalizeTag).filter (fun t =>
          !(keptRecent (keys.map normalizeTag) recency).contains t))
    ∧ (sortedRemainder (keys.map normalizeTag) recency).Pairwise
        (fun a b => a.data ≤ b.data)
    ∧ loadAllTags ["#a", "#b", "#c"] ["#c", "#a"]
        = ["CLEAR_TAG", "#a", "#c", "#b"] := by
  have hstruct : ∀ ks rc : List String, loadAllTags ks rc
      = "CLEAR_TAG" :: (keptRecent (ks.map normalizeTag) rc
          ++ sortedRemainder (ks.map normalizeTag) rc) := fun _ _ => rfl
  have hkept_nodup : (keptRecent (keys.map normalizeTag) recency).Nodup :=
    (List.nodup_reverse.mpr hr).filter _
  have hrem_nodup : ((keys.map normalizeTag).filter (fun t =>
      !(keptRecent (keys.map normalizeTag) recency).contains t)).Nodup :=
    hv.filter _
  have hperm : (sortedRemainder (keys.map normalizeTag) recency).Perm
      ((keys.map normalizeTag).filter (fun t =>
        !(keptRecent (keys.map normalizeTag) recency).contains t)) :=
    List.mergeSort_perm _ _
  have hsorted_nodup : (sortedRemainder (keys.map normalizeTag) recency).Nodup :=
    hperm.symm.nodup hrem_nodup
  have hdisj : ∀ x ∈ keptRecent (keys.map normalizeTag) recency,
      x ∉ sortedRemainder (keys.map normalizeTag) recency := by
    intro x hx hx2
    have hx3 := (List.mem_filter.mp (hperm.mem_iff.mp hx2)).2
    simp only [Bool.not_eq_eq_eq_not, Bool.not_true] at hx3
    simp at hx3
    exact hx3 hx
  have hnotin : "CLEAR_TAG" ∉ keptRecent (keys.map normalizeTag) recency
      ++ sortedRemainder (keys.map normalizeTag) recency := by
    intro hmem
    rcases List.mem_append.mp hmem with h1 | h2
    · exact hc (List.elem_iff.mp (List.mem_filter.mp h1).2)
    · exact hc ((List.mem_filter.mp (hperm.mem_iff.mp h2)).1)
  have hnodup : (loadAllTags keys recency).Nodup := by
    rw [hstruct keys recency, List.nodup_cons]
    exact ⟨hnotin, List.nodup_append.mpr ⟨hkept_nodup, hsorted_nodup, hdisj⟩⟩
  have htrans : ∀ a b c : String,
      localeLe a b = true → localeLe b c = true → localeLe a c = true := by
    intro a b c hab hbc
    simp only [localeLe, decide_eq_true_eq] at *
    exact le_trans hab hbc
  have htotal : ∀ a b : String, (localeLe a b || localeLe b a) = true := by
    intro a b
    simp only [localeLe, Bool.or_eq_true, decide_eq_true_eq]
    exact le_total _ _
  have hpw : (sortedRemainder (keys.map normalizeTag) recency).Pairwise
      (fun a b => a.data ≤ b.data) := by
    have hs := List.sorted_mergeSort htrans htotal
      ((keys.map normalizeTag).filter (fun t =>
        !(keptRecent (keys.map normalizeTag) recency).contains t))
    exact hs.imp (fun h => by simpa [localeLe, decide_eq_true_eq] using h)
  have hscen : loadAllTags ["#a", "#b", "#c"] ["#c", "#a"]
      = ["CLEAR_TAG", "#a", "#c", "#b"] := by
    have h1 : keptRecent (["#a", "#b", "#c"].map normalizeTag) ["#c", "#a"]
        = ["#a", "#c"] := by decide
    have h2 : (["#a", "#b", "#c"].map normalizeTag).filter
        (fun t => !(keptRecent (["#a", "#b", "#c"].map normalizeTag)
          ["#c", "#a"]).contains t) = ["#b"] := by decide
    have h3 : sortedRemainder (["#a", "#b", "#c"].map normalizeTag)
        ["#c", "#a"] = ["#b"] := by
      unfold sortedRemainder
      rw [h2]
      exact List.perm_singleton.mp (List.mergeSort_perm _ _)
    rw [hstruct, h1, h3]
    rfl
  exact ⟨hstruct keys recency, by rw [hstruct keys recency]; rfl, hnodup,
    hperm, hpw, hscen⟩

/-- Witness for C1 at the spec's scenario inputs. -/
theorem loadAllTags_catalog_witness :
    ((["#a", "#b", "#c"].map normalizeTag).Nodup
      ∧ (["#c", "#a"] : List String).Nodup
      ∧ "CLEAR_TAG" ∉ ["#a", "#b", "#c"].map normalizeTag)
    ∧ loadAllTags ["#a", "#b", "#c"] ["#c", "#a"]
        = ["CLEAR_TAG", "#a", "#c", "#b"] :=
  ⟨⟨by decide, by decide, by decide⟩,
    (loadAllTags_catalog ["#a", "#b", "#c"] ["#c", "#a"]
      (by decide) (by decide) (by decide)).2.2.2.2.2⟩
